import Mathlib

/-!
Shallow embedding of `GenericByteDictionaryBuilder` from
`arrow-array/src/builder/generic_bytes_dictionary_builder.rs`.

The builder keeps three pieces of mutable state:
  * a values accumulator (`GenericByteBuilder`), modelled as a list of
    optional byte sequences (a `none` entry is a null value slot);
  * a keys accumulator (`PrimitiveBuilder`), modelled as a list of
    optional slot indices (a `none` entry is a null key);
  * a dedup hash table (`hashbrown::HashTable<usize>`) storing slot
    indices, resolved against the values accumulator by exact byte
    equality.  Since collision resolution compares raw bytes, the table
    behaves as a map from byte content to the first inserted slot index;
    it is modelled as the list of stored slot indices, looked up by byte
    comparison against the values accumulator, exactly like the closures
    passed to `HashTable::entry`.

The key native type `K::Native` enters the code only through
`K::Native::from_usize`, which succeeds exactly when the integer fits in
the key type; it is modelled by a bound `keyMax` (the largest `usize`
representable in the key type) carried in the builder state.
-/

namespace DictBuilder

/-- Raw byte sequences (`&[u8]` contents); only equality of contents matters. -/
abbrev Bytes := List Nat

/-- The `ArrowError` variants produced by this component. -/
inductive ArrowError where
  | dictionaryKeyOverflow
  | invalidArgument (msg : String)
deriving DecidableEq

/-- State of `GenericByteDictionaryBuilder<K, T>`:
`dedup` is the hash table of slot indices, `keys` the keys accumulator
(with validity), `values` the values accumulator (with validity), and
`keyMax` the largest index representable in `K::Native`. -/
structure Builder where
  dedup : List Nat
  keys : List (Option Nat)
  values : List (Option Bytes)
  keyMax : Nat
deriving DecidableEq

/-- A finished dictionary-encoded array: keys with validity plus the
child values array with validity (`DictionaryArray` /
`TypedDictionaryArray` data). -/
structure DictArray where
  keys : List (Option Nat)
  values : List (Option Bytes)
deriving DecidableEq

deriving instance DecidableEq for Except

/-- `GenericByteDictionaryBuilder::new()` (capacity hints have no
behavioural effect and are dropped from the model). -/
def emptyBuilder (km : Nat) : Builder :=
  { dedup := [], keys := [], values := [], keyMax := km }

/-- `get_bytes(values, idx)`: the byte range of slot `idx` in the values
accumulator.  A null slot occupies an empty byte range. -/
def getBytes (values : List (Option Bytes)) (i : Nat) : Bytes :=
  (values.getD i none).getD []

/-- Lookup in the dedup table: find a stored slot index whose bytes in the
values accumulator equal `v` (the `eq` closure passed to
`HashTable::entry`). -/
def dedupFind (dedup : List Nat) (values : List (Option Bytes)) (v : Bytes) : Option Nat :=
  dedup.find? (fun i => decide (getBytes values i = v))

/-- `K::Native::from_usize(idx)`: succeeds exactly when `idx` fits in the
key's native type. -/
def fromUsize (km idx : Nat) : Option Nat :=
  if idx ≤ km then some idx else none

/-- `K::Native::from_usize(idx).ok_or(ArrowError::DictionaryKeyOverflowError)`. -/
def keyResult (km idx : Nat) : Except ArrowError Nat :=
  match fromUsize km idx with
  | some k => .ok k
  | none => .error .dictionaryKeyOverflow

/-- The `or_insert_with` closure of `get_or_insert_key`: append the value
to the values accumulator and record the new slot index in the dedup
table. -/
def pushValue (b : Builder) (v : Bytes) : Builder :=
  { b with dedup := b.dedup ++ [b.values.length], values := b.values ++ [some v] }

/-- `get_or_insert_key`: probe the dedup table; on miss, store the value
and insert the new slot index; then cast the slot index into the key
type.  The table/values mutation happens before the cast check, so a
failed cast leaves the value stored. -/
def get_or_insert_key (b : Builder) (v : Bytes) : Except ArrowError Nat × Builder :=
  match dedupFind b.dedup b.values v with
  | some idx => (keyResult b.keyMax idx, b)
  | none => (keyResult b.keyMax b.values.length, pushValue b v)

/-- `append`: get-or-insert the slot, then push the key; the `?` operator
returns early on overflow, before the keys accumulator is touched. -/
def append (b : Builder) (v : Bytes) : Except ArrowError Nat × Builder :=
  match get_or_insert_key b v with
  | (.ok k, b₁) => (.ok k, { b₁ with keys := b₁.keys ++ [some k] })
  | (.error e, b₁) => (.error e, b₁)

/-- `append_null`: push a null key; values and dedup untouched. -/
def append_null (b : Builder) : Builder :=
  { b with keys := b.keys ++ [none] }

/-- `append_nulls(n)`: push `n` null keys. -/
def append_nulls (b : Builder) (n : Nat) : Builder :=
  { b with keys := b.keys ++ List.replicate n none }

/-- `append_value`: infallible variant; `none` models the panic on key
overflow. -/
def append_value (b : Builder) (v : Bytes) : Option Builder :=
  match append b v with
  | (.ok _, b₁) => some b₁
  | (.error _, _) => none

/-- `append_option`: dispatch between the null and value paths. -/
def append_option (b : Builder) (v : Option Bytes) : Option Builder :=
  match v with
  | none => some (append_null b)
  | some v => append_value b v

/-- The ingestion loop of `new_with_dictionary`: for each seed entry, a
non-null value is recorded in the dedup table at its `enumerate` index
unless equal bytes are already present, and every entry (null or not) is
appended to the values accumulator. -/
def seedLoop : List (Option Bytes) → List Nat → Nat → List (Option Bytes) →
    List (Option Bytes) × List Nat
  | vb, dd, _, [] => (vb, dd)
  | vb, dd, idx, some v :: rest =>
      match dedupFind dd vb v with
      | some _ => seedLoop (vb ++ [some v]) dd (idx + 1) rest
      | none => seedLoop (vb ++ [some v]) (dd ++ [idx]) (idx + 1) rest
  | vb, dd, idx, none :: rest => seedLoop (vb ++ [none]) dd (idx + 1) rest

/-- `new_with_dictionary`: checks `K::Native::from_usize(len)` on the seed
array's length, then ingests every seed entry in order.  (The
`keys_capacity` argument only pre-allocates and is dropped.) -/
def new_with_dictionary (km : Nat) (seed : List (Option Bytes)) : Except ArrowError Builder :=
  match fromUsize km seed.length with
  | none => .error .dictionaryKeyOverflow
  | some _ =>
      .ok { dedup := (seedLoop [] [] 0 seed).2, keys := [],
            values := (seedLoop [] [] 0 seed).1, keyMax := km }

/-- Phase 1 of `extend_dictionary`: translate the source values into this
builder's slot space (`collect::<Result<Vec<_>, _>>`, short-circuiting on
the first error while keeping earlier mutations). -/
def mapValues : Builder → List (Option Bytes) → Except ArrowError (List (Option Nat)) × Builder
  | b, [] => (.ok [], b)
  | b, none :: rest =>
      match mapValues b rest with
      | (.ok m, b₁) => (.ok (none :: m), b₁)
      | (.error e, b₁) => (.error e, b₁)
  | b, some v :: rest =>
      match get_or_insert_key b v with
      | (.ok k, b₁) =>
          match mapValues b₁ rest with
          | (.ok m, b₂) => (.ok (some k :: m), b₂)
          | (.error e, b₂) => (.error e, b₂)
      | (.error e, b₁) => (.error e, b₁)

/-- Phase 2 of `extend_dictionary`: stream the source keys, clamping each
non-null key to `min(index, v_len - 1)` before indexing the translation
table; a null translated entry yields a null key. -/
def streamKeys (b : Builder) (m : List (Option Nat)) (vLen : Nat) :
    List (Option Nat) → Builder
  | [] => b
  | none :: rest => streamKeys (append_null b) m vLen rest
  | some i :: rest =>
      match m.getD (min i (vLen - 1)) none with
      | none => streamKeys (append_null b) m vLen rest
      | some k => streamKeys { b with keys := b.keys ++ [some k] } m vLen rest

/-- The per-key translation performed by phase 2: null keys stay null,
non-null keys are clamped to `min(index, vLen - 1)` and looked up in the
translation table. -/
def clampKey (m : List (Option Nat)) (vLen : Nat) : Option Nat → Option Nat
  | none => none
  | some i => m.getD (min i (vLen - 1)) none

/-- `extend_dictionary`: the two empty-shape fast paths, the invalid-shape
error, then the two-pass translate-and-stream merge. -/
def extend_dictionary (b : Builder) (d : DictArray) : Except ArrowError Unit × Builder :=
  if d.values.length = 0 ∧ d.keys.length = 0 then (.ok (), b)
  else if d.values.length = 0 then (.ok (), append_nulls b d.keys.length)
  else if d.keys.length = 0 then
    (.error (.invalidArgument "Dictionary keys should not be empty when values are not empty"), b)
  else
    match mapValues b d.values with
    | (.error e, b₁) => (.error e, b₁)
    | (.ok m, b₁) => (.ok (), streamKeys b₁ m d.values.length d.keys)

/-- `finish`: flush both accumulators into the immutable array and reset
the builder (the dedup table is cleared). -/
def finish (b : Builder) : DictArray × Builder :=
  ({ keys := b.keys, values := b.values },
   { dedup := [], keys := [], values := [], keyMax := b.keyMax })

/-- `finish_cloned`: assemble the same array from copies, leaving the
builder untouched. -/
def finish_cloned (b : Builder) : DictArray :=
  { keys := b.keys, values := b.values }

/-- The logical row sequence of a dictionary-encoded array: each key
dereferenced into the values array, nulls (of key or of referenced value)
yielding null rows. -/
def derefRows (d : DictArray) : List (Option Bytes) :=
  d.keys.map (fun k =>
    match k with
    | none => none
    | some i => d.values.getD i none)

/-- The logical row sequence currently staged in a builder. -/
def rows (b : Builder) : List (Option Bytes) :=
  derefRows (finish_cloned b)

/-- Replay a sequence of optional values through `append_option`,
stopping (with `none`) if an infallible append would panic. -/
def replay : Builder → List (Option Bytes) → Option Builder
  | b, [] => some b
  | b, v :: rest =>
      match append_option b v with
      | some b₁ => replay b₁ rest
      | none => none

/-- Run a sequence of appends through the fallible `append`/`append_null`
API, continuing after errors (the caller keeps calling; failed appends
still leave their partial mutation behind). -/
def runAppends : Builder → List (Option Bytes) → Builder
  | b, [] => b
  | b, none :: rest => runAppends (append_null b) rest
  | b, some v :: rest => runAppends (append b v).2 rest

/-- Builder invariant: every dedup entry is an in-range, non-null value
slot. -/
def goodDedupB (b : Builder) : Bool :=
  b.dedup.all (fun i => decide (i < b.values.length) && (b.values.getD i none).isSome)

/-- Builder invariant: every non-null staged key references an existing
value slot. -/
def keysInRangeB (b : Builder) : Bool :=
  b.keys.all (fun k => k.all (fun i => decide (i < b.values.length)))

/-- Index of the first entry equal to `some v`, used to specify which slot
the seed-ingestion dedup table records for each distinct value. -/
def firstIdx : List (Option Bytes) → Bytes → Option Nat
  | [], _ => none
  | x :: rest, v =>
      if x = some v then some 0 else (firstIdx rest v).map (fun n => n + 1)

/-! ### Basic list and lookup lemmas -/

lemma getD_append_lt {α : Type} (l t : List α) (d : α) (i : Nat) (h : i < l.length) :
    (l ++ t).getD i d = l.getD i d := by
  simp [List.getD_eq_getElem?_getD, List.getElem?_append_left h]

lemma getD_append_len {α : Type} (l : List α) (x d : α) :
    (l ++ [x]).getD l.length d = x := by
  simp [List.getD_eq_getElem?_getD, List.getElem?_concat_length]

lemma find?_congr_mem {α : Type} {p q : α → Bool} :
    ∀ {l : List α}, (∀ x ∈ l, p x = q x) → l.find? p = l.find? q := by
  intro l
  induction l with
  | nil => intro _; rfl
  | cons x xs ih =>
      intro h
      have hx : p x = q x := h x (List.mem_cons_self x xs)
      have hxs := ih (fun y hy => h y (List.mem_cons_of_mem x hy))
      simp only [List.find?]
      rw [hx, hxs]

lemma getBytes_append_lt (values t : List (Option Bytes)) (i : Nat)
    (h : i < values.length) : getBytes (values ++ t) i = getBytes values i := by
  unfold getBytes
  rw [getD_append_lt _ _ _ _ h]

lemma goodDedupB_iff {b : Builder} :
    goodDedupB b = true ↔
      ∀ i ∈ b.dedup, i < b.values.length ∧ (b.values.getD i none).isSome = true := by
  simp [goodDedupB, List.all_eq_true, Bool.and_eq_true]

lemma keysInRangeB_iff {b : Builder} :
    keysInRangeB b = true ↔ ∀ i : Nat, some i ∈ b.keys → i < b.values.length := by
  simp only [keysInRangeB, List.all_eq_true]
  constructor
  · intro h i hm
    have := h _ hm
    simpa using this
  · intro h k hk
    cases k with
    | none => rfl
    | some i => simpa using h i hk

lemma dedupFind_bytes {dd : List Nat} {values : List (Option Bytes)} {v : Bytes} {i : Nat}
    (h : dedupFind dd values v = some i) : i ∈ dd ∧ getBytes values i = v := by
  refine ⟨List.mem_of_find?_eq_some h, ?_⟩
  have := List.find?_some h
  simpa using this

lemma dedupFind_eq_none {dd : List Nat} {values : List (Option Bytes)} {v : Bytes} :
    dedupFind dd values v = none ↔ ∀ i ∈ dd, getBytes values i ≠ v := by
  simp [dedupFind, List.find?_eq_none]

lemma dedupFind_extend (dd : List Nat) (values t : List (Option Bytes)) (v : Bytes)
    (hdd : ∀ i ∈ dd, i < values.length) :
    dedupFind dd (values ++ t) v = dedupFind dd values v := by
  unfold dedupFind
  apply find?_congr_mem
  intro i hi
  rw [getBytes_append_lt _ _ _ (hdd i hi)]

lemma dedupFind_append (dd dd₂ : List Nat) (values : List (Option Bytes)) (v : Bytes) :
    dedupFind (dd ++ dd₂) values v =
      (dedupFind dd values v).or (dedupFind dd₂ values v) := by
  unfold dedupFind
  exact List.find?_append

/-! ### Structure of `get_or_insert_key` -/

lemma keyResult_ok_iff {km idx k : Nat} :
    keyResult km idx = .ok k ↔ idx ≤ km ∧ k = idx := by
  unfold keyResult fromUsize
  by_cases h : idx ≤ km
  · simp [h, eq_comm]
  · simp [h]

lemma keyResult_error_iff {km idx : Nat} {e : ArrowError} :
    keyResult km idx = .error e ↔ km < idx ∧ e = .dictionaryKeyOverflow := by
  unfold keyResult fromUsize
  by_cases h : idx ≤ km
  · simp [h, Nat.not_lt.mpr h]
  · simp [h, Nat.lt_of_not_le h, eq_comm]

lemma goik_found {b : Builder} {v : Bytes} {idx : Nat}
    (h : dedupFind b.dedup b.values v = some idx) :
    get_or_insert_key b v = (keyResult b.keyMax idx, b) := by
  unfold get_or_insert_key
  rw [h]

lemma goik_new {b : Builder} {v : Bytes}
    (h : dedupFind b.dedup b.values v = none) :
    get_or_insert_key b v = (keyResult b.keyMax b.values.length, pushValue b v) := by
  unfold get_or_insert_key
  rw [h]

lemma goik_snd (b : Builder) (v : Bytes) :
    (get_or_insert_key b v).2 = b ∨ (get_or_insert_key b v).2 = pushValue b v := by
  unfold get_or_insert_key
  cases h : dedupFind b.dedup b.values v <;> simp

lemma pushValue_keys (b : Builder) (v : Bytes) : (pushValue b v).keys = b.keys := rfl

lemma pushValue_keyMax (b : Builder) (v : Bytes) : (pushValue b v).keyMax = b.keyMax := rfl

lemma goik_keys (b : Builder) (v : Bytes) :
    ((get_or_insert_key b v).2).keys = b.keys := by
  rcases goik_snd b v with h | h <;> simp [h, pushValue]

lemma goik_keyMax (b : Builder) (v : Bytes) :
    ((get_or_insert_key b v).2).keyMax = b.keyMax := by
  rcases goik_snd b v with h | h <;> simp [h, pushValue]

lemma goik_values_ext (b : Builder) (v : Bytes) :
    ∃ t, ((get_or_insert_key b v).2).values = b.values ++ t := by
  rcases goik_snd b v with h | h <;> rw [h]
  · exact ⟨[], by simp⟩
  · exact ⟨[some v], rfl⟩

lemma goodDedup_pushValue {b : Builder} (v : Bytes) (h : goodDedupB b = true) :
    goodDedupB (pushValue b v) = true := by
  rw [goodDedupB_iff] at h ⊢
  intro i hi
  simp only [pushValue, List.mem_append, List.mem_singleton] at hi
  rcases hi with hi | hi
  · obtain ⟨hlt, hsome⟩ := h i hi
    refine ⟨?_, ?_⟩
    · simp only [pushValue, List.length_append, List.length_singleton]
      omega
    · show ((b.values ++ [some v]).getD i none).isSome = true
      rw [getD_append_lt _ _ _ _ hlt]
      exact hsome
  · subst hi
    refine ⟨by simp [pushValue], ?_⟩
    simp [pushValue, getD_append_len]

lemma goodDedup_goik {b : Builder} (v : Bytes) (h : goodDedupB b = true) :
    goodDedupB ((get_or_insert_key b v).2) = true := by
  rcases goik_snd b v with h2 | h2 <;> rw [h2]
  · exact h
  · exact goodDedup_pushValue v h

/-- How `get_or_insert_key` resolves a value: afterwards the dedup table
maps `v` to a slot `k` holding `v`, and the returned result is the key
cast of `k`. -/
lemma goik_resolves {b : Builder} (v : Bytes) (h : goodDedupB b = true) :
    ∃ k, dedupFind ((get_or_insert_key b v).2).dedup ((get_or_insert_key b v).2).values v
          = some k
      ∧ (get_or_insert_key b v).1 = keyResult b.keyMax k
      ∧ ((get_or_insert_key b v).2).values.getD k none = some v
      ∧ k < ((get_or_insert_key b v).2).values.length := by
  have hdd : ∀ i ∈ b.dedup, i < b.values.length := fun i hi => (goodDedupB_iff.mp h i hi).1
  cases hfind : dedupFind b.dedup b.values v with
  | some idx =>
      refine ⟨idx, ?_⟩
      rw [goik_found hfind]
      obtain ⟨hmem, hbytes⟩ := dedupFind_bytes hfind
      obtain ⟨hlt, hsome⟩ := goodDedupB_iff.mp h idx hmem
      obtain ⟨w, hw⟩ := Option.isSome_iff_exists.mp hsome
      have hwv : w = v := by
        have hgb : getBytes b.values idx = w := by
          unfold getBytes
          rw [hw]
          rfl
        rw [hgb] at hbytes
        exact hbytes
      subst hwv
      exact ⟨hfind, rfl, hw, hlt⟩
  | none =>
      refine ⟨b.values.length, ?_⟩
      rw [goik_new hfind]
      have hfind2 : dedupFind (pushValue b v).dedup (pushValue b v).values v
          = some b.values.length := by
        show dedupFind (b.dedup ++ [b.values.length]) (b.values ++ [some v]) v
          = some b.values.length
        rw [dedupFind_append]
        have h1 : dedupFind b.dedup (b.values ++ [some v]) v = none := by
          rw [dedupFind_extend _ _ _ _ hdd]
          exact hfind
        have h2 : dedupFind [b.values.length] (b.values ++ [some v]) v
            = some b.values.length := by
          unfold dedupFind
          have : getBytes (b.values ++ [some v]) b.values.length = v := by
            simp [getBytes, getD_append_len]
          simp [List.find?, this]
        rw [h1, h2]
        rfl
      refine ⟨hfind2, rfl, ?_, ?_⟩
      · show (b.values ++ [some v]).getD b.values.length none = some v
        exact getD_append_len _ _ _
      · show b.values.length < (b.values ++ [some v]).length
        simp

/-! ### Structure of `append` and the logical row sequence -/

lemma append_of_goik_ok {b : Builder} {v : Bytes} {k : Nat} {b₁ : Builder}
    (h : get_or_insert_key b v = (.ok k, b₁)) :
    append b v = (.ok k, { b₁ with keys := b₁.keys ++ [some k] }) := by
  unfold append
  rw [h]

lemma append_of_goik_error {b : Builder} {v : Bytes} {e : ArrowError} {b₁ : Builder}
    (h : get_or_insert_key b v = (.error e, b₁)) :
    append b v = (.error e, b₁) := by
  unfold append
  rw [h]

lemma append_ok_spec {b : Builder} {v : Bytes} {k : Nat} {b₁ : Builder}
    (hg : goodDedupB b = true) (h : append b v = (.ok k, b₁)) :
    b₁.keys = b.keys ++ [some k]
    ∧ (∃ t, b₁.values = b.values ++ t)
    ∧ b₁.values.getD k none = some v
    ∧ k < b₁.values.length
    ∧ goodDedupB b₁ = true
    ∧ b₁.keyMax = b.keyMax
    ∧ k ≤ b.keyMax
    ∧ dedupFind b₁.dedup b₁.values v = some k := by
  obtain ⟨k₀, hfind, hres, hget, hlt⟩ := goik_resolves v hg
  cases hgo : get_or_insert_key b v with
  | mk r b' =>
      rw [hgo] at hfind hres hget hlt
      cases r with
      | error e =>
          rw [append_of_goik_error hgo] at h
          exact absurd (congrArg Prod.fst h) (by simp)
      | ok k' =>
          rw [append_of_goik_ok hgo] at h
          have hk : k' = k := by
            have := congrArg Prod.fst h
            simpa using this
          subst hk
          have hb₁ : b₁ = { b' with keys := b'.keys ++ [some k'] } := by
            have := congrArg Prod.snd h
            simpa using this.symm
          have hres' : keyResult b.keyMax k₀ = .ok k' := hres.symm
          obtain ⟨hle, hkk⟩ := keyResult_ok_iff.mp hres'
          subst hkk
          have hkeys : b'.keys = b.keys := by
            have := goik_keys b v
            rw [hgo] at this
            exact this
          have hmax : b'.keyMax = b.keyMax := by
            have := goik_keyMax b v
            rw [hgo] at this
            exact this
          have hext : ∃ t, b'.values = b.values ++ t := by
            have := goik_values_ext b v
            rw [hgo] at this
            exact this
          have hgd : goodDedupB b' = true := by
            have := goodDedup_goik v hg
            rw [hgo] at this
            exact this
          subst hb₁
          refine ⟨by rw [hkeys], hext, hget, hlt, hgd, hmax, hle, hfind⟩

lemma append_error_state {b : Builder} {v : Bytes} {e : ArrowError} {b₁ : Builder}
    (h : append b v = (.error e, b₁)) :
    get_or_insert_key b v = (.error e, b₁) := by
  cases hgo : get_or_insert_key b v with
  | mk r b' =>
      cases r with
      | error e' =>
          rw [append_of_goik_error hgo] at h
          exact h
      | ok k' =>
          rw [append_of_goik_ok hgo] at h
          exact absurd (congrArg Prod.fst h) (by simp)

lemma rows_append_null (b : Builder) : rows (append_null b) = rows b ++ [none] := by
  simp [rows, derefRows, finish_cloned, append_null]

lemma rows_append_nulls (b : Builder) (n : Nat) :
    rows (append_nulls b n) = rows b ++ List.replicate n none := by
  simp [rows, derefRows, finish_cloned, append_nulls, List.map_replicate]

lemma derefRows_values_ext (b : Builder) (t : List (Option Bytes))
    (hkr : keysInRangeB b = true) :
    derefRows { keys := b.keys, values := b.values ++ t } = rows b := by
  simp only [rows, derefRows, finish_cloned]
  apply List.map_congr_left
  intro k hk
  cases k with
  | none => rfl
  | some i =>
      have hlt : i < b.values.length := keysInRangeB_iff.mp hkr i hk
      simp only
      rw [getD_append_lt _ _ _ _ hlt]

lemma keysInRange_append_null (b : Builder) (h : keysInRangeB b = true) :
    keysInRangeB (append_null b) = true := by
  rw [keysInRangeB_iff] at h ⊢
  intro i hi
  simp only [append_null, List.mem_append, List.mem_singleton] at hi
  rcases hi with hi | hi
  · exact h i hi
  · exact absurd hi (by simp)

lemma goodDedup_append_null (b : Builder) (h : goodDedupB b = true) :
    goodDedupB (append_null b) = true := h

/-- One successful fallible `append` of `v` extends the staged logical
rows by exactly `some v`, preserving the builder invariants. -/
lemma rows_append_ok {b : Builder} {v : Bytes} {k : Nat} {b₁ : Builder}
    (hg : goodDedupB b = true) (hkr : keysInRangeB b = true)
    (h : append b v = (.ok k, b₁)) :
    rows b₁ = rows b ++ [some v]
    ∧ goodDedupB b₁ = true
    ∧ keysInRangeB b₁ = true
    ∧ b₁.keyMax = b.keyMax
    ∧ ∃ t, b₁.values = b.values ++ t := by
  obtain ⟨hkeys, ⟨t, hvals⟩, hget, hlt, hgd, hmax, _, _⟩ := append_ok_spec hg h
  have hrows : rows b₁ = rows b ++ [some v] := by
    show derefRows (finish_cloned b₁) = _
    unfold finish_cloned
    rw [hkeys, hvals]
    unfold derefRows
    rw [List.map_append]
    have h1 : List.map
        (fun kk => match kk with
          | none => none
          | some i => (b.values ++ t).getD i none) b.keys = rows b := by
      have := derefRows_values_ext b t hkr
      simpa [derefRows] using this
    rw [h1]
    have h2 : (b.values ++ t).getD k none = some v := by
      rw [← hvals]
      exact hget
    show rows b ++ [(b.values ++ t).getD k none] = rows b ++ [some v]
    rw [h2]
  have hkr₁ : keysInRangeB b₁ = true := by
    rw [keysInRangeB_iff]
    intro i hi
    rw [hkeys] at hi
    simp only [List.mem_append, List.mem_singleton] at hi
    rcases hi with hi | hi
    · have := keysInRangeB_iff.mp hkr i hi
      rw [hvals, List.length_append]
      omega
    · have : i = k := by simpa using hi
      subst this
      exact hlt
  exact ⟨hrows, hgd, hkr₁, hmax, t, hvals⟩

/-- Replaying a sequence through `append_option` appends exactly that
sequence to the staged logical rows. -/
lemma replay_spec :
    ∀ (s : List (Option Bytes)) (b b₂ : Builder),
      goodDedupB b = true → keysInRangeB b = true → replay b s = some b₂ →
      rows b₂ = rows b ++ s
      ∧ goodDedupB b₂ = true
      ∧ keysInRangeB b₂ = true
      ∧ b₂.keyMax = b.keyMax
      ∧ ∃ t, b₂.values = b.values ++ t := by
  intro s
  induction s with
  | nil =>
      intro b b₂ hg hkr h
      have hb : b₂ = b := by
        simpa [replay] using h.symm
      subst hb
      exact ⟨by simp, hg, hkr, rfl, [], by simp⟩
  | cons x rest ih =>
      intro b b₂ hg hkr h
      cases x with
      | none =>
          have h' : replay (append_null b) rest = some b₂ := by
            simpa [replay, append_option] using h
          obtain ⟨hrows, hg₂, hkr₂, hmax₂, t, ht⟩ :=
            ih (append_null b) b₂ (goodDedup_append_null b hg)
              (keysInRange_append_null b hkr) h'
          refine ⟨?_, hg₂, hkr₂, hmax₂, t, ht⟩
          rw [hrows, rows_append_null]
          simp
      | some v =>
          simp only [replay, append_option, append_value] at h
          cases happ : append b v with
          | mk r b₁ =>
              rw [happ] at h
              cases r with
              | error e => simp at h
              | ok k =>
                  simp only at h
                  obtain ⟨hrows₁, hg₁, hkr₁, hmax₁, t₁, ht₁⟩ :=
                    rows_append_ok hg hkr happ
                  obtain ⟨hrows, hg₂, hkr₂, hmax₂, t₂, ht₂⟩ :=
                    ih b₁ b₂ hg₁ hkr₁ h
                  refine ⟨?_, hg₂, hkr₂, by rw [hmax₂, hmax₁], ?_⟩
                  · rw [hrows, hrows₁]
                    simp
                  · refine ⟨t₁ ++ t₂, ?_⟩
                    rw [ht₂, ht₁, List.append_assoc]

lemma goik_ok_spec {b : Builder} {v : Bytes} {k : Nat} {b₁ : Builder}
    (hg : goodDedupB b = true) (h : get_or_insert_key b v = (.ok k, b₁)) :
    b₁.keys = b.keys
    ∧ (∃ t, b₁.values = b.values ++ t)
    ∧ b₁.values.getD k none = some v
    ∧ k < b₁.values.length
    ∧ goodDedupB b₁ = true
    ∧ b₁.keyMax = b.keyMax
    ∧ k ≤ b.keyMax
    ∧ dedupFind b₁.dedup b₁.values v = some k := by
  obtain ⟨k₀, hfind, hres, hget, hlt⟩ := goik_resolves v hg
  rw [h] at hfind hres hget hlt
  simp only at hfind hres hget hlt
  obtain ⟨hle, hkk⟩ := keyResult_ok_iff.mp hres.symm
  subst hkk
  have hkeys : b₁.keys = b.keys := by
    have := goik_keys b v
    rw [h] at this
    exact this
  have hmax : b₁.keyMax = b.keyMax := by
    have := goik_keyMax b v
    rw [h] at this
    exact this
  have hext : ∃ t, b₁.values = b.values ++ t := by
    have := goik_values_ext b v
    rw [h] at this
    exact this
  have hgd : goodDedupB b₁ = true := by
    have := goodDedup_goik v hg
    rw [h] at this
    exact this
  exact ⟨hkeys, hext, hget, hlt, hgd, hmax, hle, hfind⟩

/-- `streamKeys` only appends keys: per source key, a null key or the
clamped translation-table entry. -/
lemma streamKeys_eq (m : List (Option Nat)) (vLen : Nat) :
    ∀ (ks : List (Option Nat)) (b : Builder),
      streamKeys b m vLen ks = { b with keys := b.keys ++ ks.map (clampKey m vLen) } := by
  intro ks
  induction ks with
  | nil => intro b; simp [streamKeys]
  | cons x rest ih =>
      intro b
      cases x with
      | none =>
          show streamKeys (append_null b) m vLen rest = _
          rw [ih]
          simp [append_null, clampKey]
      | some i =>
          show (match m.getD (min i (vLen - 1)) none with
                | none => streamKeys (append_null b) m vLen rest
                | some k => streamKeys { b with keys := b.keys ++ [some k] } m vLen rest) = _
          cases hm : m.getD (min i (vLen - 1)) none with
          | none =>
              show streamKeys (append_null b) m vLen rest = _
              rw [ih]
              have hm' : m[min i (vLen - 1)]?.getD none = none := by
                rw [← List.getD_eq_getElem?_getD]
                exact hm
              simp [append_null, clampKey, hm']
          | some k =>
              show streamKeys { b with keys := b.keys ++ [some k] } m vLen rest = _
              rw [ih]
              have hm' : m[min i (vLen - 1)]?.getD none = some k := by
                rw [← List.getD_eq_getElem?_getD]
                exact hm
              simp [clampKey, hm']

/-- Specification of phase 1 of `extend_dictionary`: on success, the
translation table has one entry per source value entry, nulls mapping to
nulls and values mapping to slots of the destination holding those
values; the destination's keys are untouched. -/
lemma mapValues_spec :
    ∀ (vals : List (Option Bytes)) (b : Builder) (m : List (Option Nat)) (b₂ : Builder),
      goodDedupB b = true →
      mapValues b vals = (.ok m, b₂) →
      goodDedupB b₂ = true
      ∧ b₂.keys = b.keys
      ∧ b₂.keyMax = b.keyMax
      ∧ (∃ t, b₂.values = b.values ++ t)
      ∧ m.length = vals.length
      ∧ ∀ i, i < vals.length →
          (vals.getD i none = none → m.getD i none = none)
          ∧ ∀ v, vals.getD i none = some v →
              ∃ k, m.getD i none = some k ∧ b₂.values.getD k none = some v := by
  intro vals
  induction vals with
  | nil =>
      intro b m b₂ hg h
      simp only [mapValues] at h
      obtain ⟨hm, hb⟩ : ([] : List (Option Nat)) = m ∧ b = b₂ := by
        constructor
        · exact congrArg (fun p =>
            match p.1 with | .ok mm => mm | .error _ => []) h
        · exact congrArg Prod.snd h
      subst hm
      subst hb
      exact ⟨hg, rfl, rfl, ⟨[], by simp⟩, rfl, fun i hi => absurd hi (by simp)⟩
  | cons x rest ih =>
      intro b m b₂ hg h
      cases x with
      | none =>
          simp only [mapValues] at h
          cases hmv : mapValues b rest with
          | mk r b' =>
              rw [hmv] at h
              cases r with
              | error e => simp at h
              | ok m' =>
                  simp only at h
                  have hm : m = none :: m' := by
                    have := congrArg (fun p =>
                      match p.1 with | .ok mm => mm | .error _ => ([] : List (Option Nat))) h
                    exact this.symm
                  have hb : b₂ = b' := (congrArg Prod.snd h).symm
                  subst hm
                  subst hb
                  obtain ⟨h1, h2, h3, h4, h5, h6⟩ := ih b m' b₂ hg hmv
                  refine ⟨h1, h2, h3, h4, by simp [h5], ?_⟩
                  intro i hi
                  cases i with
                  | zero => exact ⟨fun _ => rfl, fun v hv => by simp at hv⟩
                  | succ j =>
                      have hj : j < rest.length := by
                        simp at hi
                        omega
                      simpa [List.getD_cons_succ] using h6 j hj
      | some v =>
          simp only [mapValues] at h
          cases hgo : get_or_insert_key b v with
          | mk r b' =>
              rw [hgo] at h
              cases r with
              | error e => simp at h
              | ok k =>
                  simp only at h
                  cases hmv : mapValues b' rest with
                  | mk r₂ b'' =>
                      rw [hmv] at h
                      cases r₂ with
                      | error e => simp at h
                      | ok m' =>
                          simp only at h
                          have hm : m = some k :: m' := by
                            have := congrArg (fun p =>
                              match p.1 with
                              | .ok mm => mm
                              | .error _ => ([] : List (Option Nat))) h
                            exact this.symm
                          have hb : b₂ = b'' := (congrArg Prod.snd h).symm
                          subst hm
                          subst hb
                          obtain ⟨hbkeys, ⟨t₁, ht₁⟩, hget, hlt, hgd', hmax', _, _⟩ :=
                            goik_ok_spec hg hgo
                          obtain ⟨h1, h2, h3, h4, h5, h6⟩ := ih b' m' b₂ hgd' hmv
                          obtain ⟨t₂, ht₂⟩ := h4
                          refine ⟨h1, by rw [h2, hbkeys], by rw [h3, hmax'],
                            ⟨t₁ ++ t₂, by rw [ht₂, ht₁, List.append_assoc]⟩,
                            by simp [h5], ?_⟩
                          intro i hi
                          cases i with
                          | zero =>
                              refine ⟨fun hv => by simp at hv, ?_⟩
                              intro w hw
                              have hwv : w = v := by
                                simp at hw
                                exact hw.symm
                              subst hwv
                              refine ⟨k, rfl, ?_⟩
                              rw [ht₂, getD_append_lt _ _ _ _ hlt]
                              exact hget
                          | succ j =>
                              have hj : j < rest.length := by
                                simp at hi
                                omega
                              simpa [List.getD_cons_succ] using h6 j hj

/-- A successful `extend_dictionary` appends exactly the source's logical
row sequence to the destination's staged rows. -/
lemma extend_ok_rows {B : Builder} {d : DictArray} {B₁ : Builder}
    (hg : goodDedupB B = true) (hkr : keysInRangeB B = true)
    (hdk : ∀ i : Nat, some i ∈ d.keys → i < d.values.length)
    (h : extend_dictionary B d = (.ok (), B₁)) :
    rows B₁ = rows B ++ derefRows d := by
  unfold extend_dictionary at h
  by_cases h00 : d.values.length = 0 ∧ d.keys.length = 0
  · rw [if_pos h00] at h
    have hB : B = B₁ := congrArg Prod.snd h
    have hkeys : d.keys = [] := List.length_eq_zero.mp h00.2
    rw [← hB]
    simp [derefRows, hkeys]
  · rw [if_neg h00] at h
    by_cases hv0 : d.values.length = 0
    · rw [if_pos hv0] at h
      have hB : append_nulls B d.keys.length = B₁ := congrArg Prod.snd h
      have hder : derefRows d = List.replicate d.keys.length none := by
        refine List.eq_replicate_iff.mpr ⟨by simp [derefRows], ?_⟩
        intro x hx
        simp only [derefRows, List.mem_map] at hx
        obtain ⟨k, hk, hfk⟩ := hx
        cases k with
        | none => exact hfk.symm
        | some i =>
            have hi := hdk i hk
            rw [hv0] at hi
            exact absurd hi (by omega)
      rw [← hB, rows_append_nulls, hder]
    · rw [if_neg hv0] at h
      by_cases hk0 : d.keys.length = 0
      · rw [if_pos hk0] at h
        exact absurd (congrArg Prod.fst h) (by simp)
      · rw [if_neg hk0] at h
        cases hmv : mapValues B d.values with
        | mk r b' =>
            rw [hmv] at h
            cases r with
            | error e => exact absurd (congrArg Prod.fst h) (by simp)
            | ok m =>
                simp only at h
                have hB : streamKeys b' m d.values.length d.keys = B₁ :=
                  congrArg Prod.snd h
                obtain ⟨hgd', hkeys', hmax', ⟨t, ht⟩, hlen, hspec⟩ :=
                  mapValues_spec d.values B m b' hg hmv
                rw [← hB, streamKeys_eq]
                show derefRows
                    { keys := b'.keys ++ d.keys.map (clampKey m d.values.length),
                      values := b'.values } = rows B ++ derefRows d
                unfold derefRows
                rw [List.map_append, List.map_map]
                congr 1
                · rw [hkeys', ht]
                  exact derefRows_values_ext B t hkr
                · apply List.map_congr_left
                  intro k hk
                  cases k with
                  | none => rfl
                  | some i =>
                      have hi : i < d.values.length := hdk i hk
                      have hmin : min i (d.values.length - 1) = i := by omega
                      show (match m.getD (min i (d.values.length - 1)) none with
                            | none => none
                            | some k₂ => b'.values.getD k₂ none) = d.values.getD i none
                      rw [hmin]
                      cases hv : d.values.getD i none with
                      | none =>
                          have hm0 : m.getD i none = none := (hspec i hi).1 hv
                          rw [hm0]
                      | some v =>
                          obtain ⟨k₂, hk₂, hbv⟩ := (hspec i hi).2 v hv
                          rw [hk₂]
                          exact hbv

lemma emptyBuilder_goodDedup (km : Nat) : goodDedupB (emptyBuilder km) = true := rfl

lemma emptyBuilder_keysInRange (km : Nat) : keysInRangeB (emptyBuilder km) = true := rfl

lemma emptyBuilder_rows (km : Nat) : rows (emptyBuilder km) = [] := rfl

/-- After a fresh miss-insert, the dedup table resolves the value to the
slot that was just consumed. -/
lemma dedupFind_push_self {b : Builder} (v : Bytes) (hg : goodDedupB b = true)
    (hfind : dedupFind b.dedup b.values v = none) :
    dedupFind (pushValue b v).dedup (pushValue b v).values v = some b.values.length := by
  have hdd : ∀ i ∈ b.dedup, i < b.values.length :=
    fun i hi => (goodDedupB_iff.mp hg i hi).1
  show dedupFind (b.dedup ++ [b.values.length]) (b.values ++ [some v]) v
    = some b.values.length
  rw [dedupFind_append]
  have h1 : dedupFind b.dedup (b.values ++ [some v]) v = none := by
    rw [dedupFind_extend _ _ _ _ hdd]
    exact hfind
  have h2 : dedupFind [b.values.length] (b.values ++ [some v]) v
      = some b.values.length := by
    unfold dedupFind
    have hgb : getBytes (b.values ++ [some v]) b.values.length = v := by
      simp [getBytes, getD_append_len]
    simp [List.find?, hgb]
  rw [h1, h2]
  rfl

/-- The values accumulator built by the seed ingestion loop is exactly the
accumulated prefix followed by the remaining seed entries, in order. -/
lemma seedLoop_values :
    ∀ (rest vb : List (Option Bytes)) (dd : List Nat) (idx : Nat),
      (seedLoop vb dd idx rest).1 = vb ++ rest := by
  intro rest
  induction rest with
  | nil => intro vb dd idx; simp [seedLoop]
  | cons x rest ih =>
      intro vb dd idx
      cases x with
      | some v =>
          show (match dedupFind dd vb v with
                | some _ => seedLoop (vb ++ [some v]) dd (idx + 1) rest
                | none => seedLoop (vb ++ [some v]) (dd ++ [idx]) (idx + 1) rest).1
              = vb ++ (some v :: rest)
          cases hf : dedupFind dd vb v with
          | some j => rw [ih]; simp
          | none => rw [ih]; simp
      | none =>
          show (seedLoop (vb ++ [none]) dd (idx + 1) rest).1 = vb ++ (none :: rest)
          rw [ih]
          simp

/-! ### Stability of resolved keys along later appends -/

lemma keyResult_of_le {km idx : Nat} (h : idx ≤ km) : keyResult km idx = .ok idx := by
  unfold keyResult fromUsize
  rw [if_pos h]

lemma append_parts (b : Builder) (v : Bytes) :
    (append b v).1 = (get_or_insert_key b v).1
    ∧ ((append b v).2).dedup = ((get_or_insert_key b v).2).dedup
    ∧ ((append b v).2).values = ((get_or_insert_key b v).2).values
    ∧ ((append b v).2).keyMax = ((get_or_insert_key b v).2).keyMax := by
  unfold append
  cases hgo : get_or_insert_key b v with
  | mk r b' => cases r <;> simp

lemma goodDedup_append (b : Builder) (v : Bytes) (hg : goodDedupB b = true) :
    goodDedupB ((append b v).2) = true := by
  have hp := append_parts b v
  have h := goodDedup_goik v hg
  rw [goodDedupB_iff] at h ⊢
  intro i hi
  rw [hp.2.1] at hi
  rw [hp.2.2.1]
  exact h i hi

lemma append_keyMax (b : Builder) (v : Bytes) :
    ((append b v).2).keyMax = b.keyMax := by
  rw [(append_parts b v).2.2.2]
  exact goik_keyMax b v

/-- A value already resolved by the dedup table keeps its slot across any
later `append` (the table and values are only ever extended). -/
lemma dedupFind_stable_append {b : Builder} (w v : Bytes) {k : Nat}
    (hg : goodDedupB b = true)
    (h : dedupFind b.dedup b.values v = some k) :
    dedupFind ((append b w).2).dedup ((append b w).2).values v = some k := by
  have hp := append_parts b w
  rw [hp.2.1, hp.2.2.1]
  rcases goik_snd b w with h2 | h2 <;> rw [h2]
  · exact h
  · show dedupFind (b.dedup ++ [b.values.length]) (b.values ++ [some w]) v = some k
    rw [dedupFind_append]
    have hdd : ∀ i ∈ b.dedup, i < b.values.length :=
      fun i hi => (goodDedupB_iff.mp hg i hi).1
    rw [dedupFind_extend _ _ _ _ hdd, h]
    rfl

/-- Resolved keys, the invariant and the key bound survive an arbitrary
run of further appends. -/
lemma runAppends_stable :
    ∀ (ws : List (Option Bytes)) (b : Builder),
      goodDedupB b = true →
      goodDedupB (runAppends b ws) = true
      ∧ (runAppends b ws).keyMax = b.keyMax
      ∧ ∀ (v : Bytes) (k : Nat), dedupFind b.dedup b.values v = some k →
          dedupFind (runAppends b ws).dedup (runAppends b ws).values v = some k := by
  intro ws
  induction ws with
  | nil => intro b hg; exact ⟨hg, rfl, fun v k h => h⟩
  | cons x rest ih =>
      intro b hg
      cases x with
      | none =>
          obtain ⟨h1, h2, h3⟩ := ih (append_null b) hg
          exact ⟨h1, h2, fun v k h => h3 v k h⟩
      | some w =>
          obtain ⟨h1, h2, h3⟩ := ih ((append b w).2) (goodDedup_append b w hg)
          refine ⟨h1, ?_, fun v k h => h3 v k (dedupFind_stable_append w v hg h)⟩
          show (runAppends ((append b w).2) rest).keyMax = b.keyMax
          rw [h2, append_keyMax]

/-- The key returned for `v` after any run of intervening appends is the
key cast of the slot `v` already resolves to. -/
lemma append_result_after_run (b : Builder) (v : Bytes) (ws : List (Option Bytes)) (k : Nat)
    (hg : goodDedupB b = true)
    (hfind : dedupFind b.dedup b.values v = some k) :
    (append (runAppends b ws) v).1 = keyResult b.keyMax k := by
  obtain ⟨h1, h2, h3⟩ := runAppends_stable ws b hg
  have hf := h3 v k hfind
  rw [(append_parts (runAppends b ws) v).1, goik_found hf]
  show keyResult (runAppends b ws).keyMax k = keyResult b.keyMax k
  rw [h2]

/-- Any `append` leaves the value resolvable in the dedup table, and its
result is the key cast of that slot. -/
lemma append_resolves (b : Builder) (v : Bytes) (hg : goodDedupB b = true) :
    ∃ k, dedupFind ((append b v).2).dedup ((append b v).2).values v = some k
      ∧ (append b v).1 = keyResult b.keyMax k := by
  obtain ⟨k, hfind, hres, _, _⟩ := goik_resolves v hg
  have hp := append_parts b v
  refine ⟨k, ?_, ?_⟩
  · rw [hp.2.1, hp.2.2.1]
    exact hfind
  · rw [hp.1]
    exact hres

/-! ### Fresh builders holding pairwise-distinct values -/

lemma getBytes_map_some (l : List Bytes) (i : Nat) (h : i < l.length) :
    getBytes (l.map some) i = l.getD i [] := by
  unfold getBytes
  rw [List.getD_eq_getElem?_getD, List.getElem?_map, List.getElem?_eq_getElem h]
  rw [List.getD_eq_getElem?_getD, List.getElem?_eq_getElem h]
  rfl

/-- On a fresh-shaped builder (slots `0..n-1` holding the non-null values
`cs`), the dedup table misses exactly the values not in `cs`. -/
lemma dedupFind_fresh (cs : List Bytes) (v : Bytes) :
    dedupFind (List.range cs.length) (cs.map some) v = none ↔ v ∉ cs := by
  rw [dedupFind_eq_none]
  constructor
  · intro h hv
    obtain ⟨i, hi, hci⟩ := List.mem_iff_getElem.mp hv
    exact h i (List.mem_range.mpr hi) (by
      rw [getBytes_map_some cs i hi, List.getD_eq_getElem?_getD,
        List.getElem?_eq_getElem hi]
      exact hci)
  · intro hv i hi
    have hilt := List.mem_range.mp hi
    rw [getBytes_map_some cs i hilt]
    intro hc
    apply hv
    rw [← hc, List.getD_eq_getElem?_getD, List.getElem?_eq_getElem hilt]
    exact List.getElem_mem hilt

lemma dedupFind_fresh_isSome (cs : List Bytes) (v : Bytes) :
    (dedupFind (List.range cs.length) (cs.map some) v).isSome = true ↔ v ∈ cs := by
  rw [Option.isSome_iff_ne_none]
  constructor
  · intro h
    by_contra hv
    exact h ((dedupFind_fresh cs v).mpr hv)
  · intro hv hc
    exact (dedupFind_fresh cs v).mp hc hv

/-- Replaying pairwise-distinct fresh values through `append` succeeds as
long as the key type can represent every new slot index, assigning the
slots in order. -/
lemma replay_distinct :
    ∀ (vs done : List Bytes) (b : Builder),
      b.values = done.map some →
      b.dedup = List.range done.length →
      (done ++ vs).Nodup →
      done.length + vs.length ≤ b.keyMax + 1 →
      ∃ b', replay b (vs.map some) = some b'
        ∧ b'.values = (done ++ vs).map some
        ∧ b'.dedup = List.range (done ++ vs).length
        ∧ b'.keyMax = b.keyMax := by
  intro vs
  induction vs with
  | nil =>
      intro done b h1 h2 h3 h4
      exact ⟨b, rfl, by simp [h1], by simp [h2], rfl⟩
  | cons v rest ih =>
      intro done b h1 h2 h3 h4
      have h4' : done.length + (rest.length + 1) ≤ b.keyMax + 1 := by simpa using h4
      have hvnot : v ∉ done := by
        rw [List.nodup_append] at h3
        intro hv
        exact h3.2.2 hv (List.mem_cons_self v rest)
      have hfind : dedupFind b.dedup b.values v = none := by
        rw [h1, h2]
        exact (dedupFind_fresh done v).mpr hvnot
      have hlenb : b.values.length = done.length := by rw [h1]; simp
      have hcond : b.values.length ≤ b.keyMax := by omega
      have hgoik : get_or_insert_key b v = (.ok b.values.length, pushValue b v) := by
        rw [goik_new hfind, keyResult_of_le hcond]
      have happ := append_of_goik_ok hgoik
      have hval : ((append b v).2).values = (done ++ [v]).map some := by
        rw [happ]
        show b.values ++ [some v] = _
        rw [h1]
        simp
      have hded : ((append b v).2).dedup = List.range ((done ++ [v]).length) := by
        rw [happ]
        show b.dedup ++ [b.values.length] = _
        rw [h2, hlenb, show (done ++ [v]).length = done.length + 1 by simp,
          List.range_succ]
      have hnod : ((done ++ [v]) ++ rest).Nodup := by
        rw [List.append_assoc]
        exact h3
      have hbound : (done ++ [v]).length + rest.length ≤ ((append b v).2).keyMax + 1 := by
        rw [append_keyMax]
        simp only [List.length_append, List.length_singleton]
        omega
      obtain ⟨b', hrep, hv', hd', hk'⟩ := ih (done ++ [v]) ((append b v).2)
        hval hded hnod hbound
      refine ⟨b', ?_, by simpa using hv', by simpa using hd',
        by rw [hk', append_keyMax]⟩
      show (match append_option b (some v) with
            | some bb => replay bb (rest.map some)
            | none => none) = some b'
      have hao : append_option b (some v) = some ((append b v).2) := by
        show (match append b v with
              | (Except.ok _, b₁) => some b₁
              | (Except.error _, _) => none) = some ((append b v).2)
        rw [happ]
      rw [hao]
      exact hrep

/-- Running any mixed append sequence keeps a fresh builder fresh-shaped:
slots stay all non-null and pairwise distinct, and the slot count grows by
exactly the number of distinct new non-null values. -/
lemma runAppends_fresh_card :
    ∀ (s : List (Option Bytes)) (cs : List Bytes) (b : Builder),
      b.values = cs.map some →
      b.dedup = List.range cs.length →
      cs.Nodup →
      ∃ cs₂ : List Bytes,
        (runAppends b s).values = cs₂.map some
        ∧ (runAppends b s).dedup = List.range cs₂.length
        ∧ cs₂.Nodup
        ∧ cs₂.length = cs.length + ((s.filterMap id).toFinset \ cs.toFinset).card := by
  intro s
  induction s with
  | nil =>
      intro cs b h1 h2 h3
      exact ⟨cs, h1, h2, h3, by simp⟩
  | cons x rest ih =>
      intro cs b h1 h2 h3
      cases x with
      | none =>
          obtain ⟨cs₂, g1, g2, g3, g4⟩ := ih cs (append_null b) h1 h2 h3
          exact ⟨cs₂, g1, g2, g3, by simpa using g4⟩
      | some v =>
          by_cases hv : v ∈ cs
          · have hfs : (dedupFind b.dedup b.values v).isSome = true := by
              rw [h1, h2]
              exact (dedupFind_fresh_isSome cs v).mpr hv
            obtain ⟨idx, hidx⟩ := Option.isSome_iff_exists.mp hfs
            have hp := append_parts b v
            have hgoik := goik_found hidx
            have hv1 : ((append b v).2).values = cs.map some := by
              rw [hp.2.2.1, hgoik]
              exact h1
            have hd1 : ((append b v).2).dedup = List.range cs.length := by
              rw [hp.2.1, hgoik]
              exact h2
            obtain ⟨cs₂, g1, g2, g3, g4⟩ := ih cs ((append b v).2) hv1 hd1 h3
            refine ⟨cs₂, g1, g2, g3, ?_⟩
            rw [g4]
            have hfm : ((some v :: rest).filterMap id).toFinset
                = insert v ((rest.filterMap id).toFinset) := by
              simp [List.filterMap_cons]
            rw [hfm, Finset.insert_sdiff_of_mem _ (List.mem_toFinset.mpr hv)]
          · have hfind : dedupFind b.dedup b.values v = none := by
              rw [h1, h2]
              exact (dedupFind_fresh cs v).mpr hv
            have hgoik := goik_new hfind
            have hp := append_parts b v
            have hlb : b.values.length = cs.length := by rw [h1]; simp
            have hv1 : ((append b v).2).values = (cs ++ [v]).map some := by
              rw [hp.2.2.1, hgoik]
              show b.values ++ [some v] = _
              rw [h1]
              simp
            have hd1 : ((append b v).2).dedup = List.range ((cs ++ [v]).length) := by
              rw [hp.2.1, hgoik]
              show b.dedup ++ [b.values.length] = _
              rw [h2, hlb, show (cs ++ [v]).length = cs.length + 1 by simp,
                List.range_succ]
            have h3' : (cs ++ [v]).Nodup := by
              rw [List.nodup_append]
              refine ⟨h3, by simp, ?_⟩
              intro a ha hb
              rw [List.mem_singleton] at hb
              subst hb
              exact hv ha
            obtain ⟨cs₂, g1, g2, g3, g4⟩ := ih (cs ++ [v]) ((append b v).2) hv1 hd1 h3'
            refine ⟨cs₂, g1, g2, g3, ?_⟩
            rw [g4]
            have hfm : ((some v :: rest).filterMap id).toFinset
                = insert v ((rest.filterMap id).toFinset) := by
              simp [List.filterMap_cons]
            have htf : (cs ++ [v]).toFinset = insert v cs.toFinset := by
              rw [List.toFinset_append]
              ext a
              simp [or_comm]
            rw [hfm, htf, show (cs ++ [v]).length = cs.length + 1 by simp]
            rw [Finset.sdiff_insert,
              Finset.insert_sdiff_of_not_mem _ (fun hc => hv (List.mem_toFinset.mp hc))]
            by_cases hvR : v ∈ (rest.filterMap id).toFinset \ cs.toFinset
            · rw [Finset.insert_eq_self.mpr hvR]
              have := Finset.card_erase_add_one hvR
              omega
            · rw [Finset.erase_eq_of_not_mem hvR, Finset.card_insert_of_not_mem hvR]
              omega

lemma runAppends_append :
    ∀ (l₁ l₂ : List (Option Bytes)) (b : Builder),
      runAppends b (l₁ ++ l₂) = runAppends (runAppends b l₁) l₂ := by
  intro l₁
  induction l₁ with
  | nil => intro l₂ b; rfl
  | cons x rest ih =>
      intro l₂ b
      cases x with
      | none => exact ih l₂ (append_null b)
      | some v => exact ih l₂ ((append b v).2)

/-- After `v` has been appended once, appending `v` again after any run of
intervening appends returns the same result as that first append. -/
lemma append_after_occurrence (b : Builder) (v : Bytes) (u : List (Option Bytes))
    (hg : goodDedupB b = true) :
    (append (runAppends ((append b v).2) u) v).1 = (append b v).1 := by
  obtain ⟨k, hfind, hres⟩ := append_resolves b v hg
  have hg2 : goodDedupB ((append b v).2) = true := goodDedup_append b v hg
  have h := append_result_after_run ((append b v).2) v u k hg2 hfind
  rw [h, append_keyMax, hres]

/-- Two occurrences of the same value in one append run resolve to the
same result (ordered case). -/
lemma key_agreement_aux (b : Builder) (hg : goodDedupB b = true) (v : Bytes)
    (s₁ s₂ t₁ t₂ : List (Option Bytes)) (hlen : s₁.length ≤ t₁.length)
    (heq : s₁ ++ some v :: s₂ = t₁ ++ some v :: t₂) :
    (append (runAppends b t₁) v).1 = (append (runAppends b s₁) v).1 := by
  have htake : t₁.take s₁.length = s₁ := by
    have h1 : (s₁ ++ some v :: s₂).take s₁.length = s₁ :=
      List.take_left s₁ (some v :: s₂)
    rw [heq, List.take_append_of_le_length hlen] at h1
    exact h1
  have hu : t₁ = s₁ ++ t₁.drop s₁.length := by
    conv_lhs => rw [← List.take_append_drop s₁.length t₁]
    rw [htake]
  have hcancel : some v :: s₂ = t₁.drop s₁.length ++ some v :: t₂ := by
    have h2 := heq
    rw [hu, List.append_assoc] at h2
    exact List.append_cancel_left h2
  cases hdrop : t₁.drop s₁.length with
  | nil =>
      rw [hu, hdrop, List.append_nil]
  | cons x u₂ =>
      rw [hdrop] at hcancel hu
      rw [List.cons_append] at hcancel
      injection hcancel with hx hrest
      rw [← hx] at hu
      have hrun : runAppends b t₁ = runAppends ((append (runAppends b s₁) v).2) u₂ := by
        rw [hu, runAppends_append]
        rfl
      rw [hrun]
      exact append_after_occurrence (runAppends b s₁) v u₂ (runAppends_stable s₁ b hg).1

/-! ### The seed-ingestion dedup table records first occurrences -/

lemma firstIdx_append (P Q : List (Option Bytes)) (v : Bytes) :
    firstIdx (P ++ Q) v
      = (firstIdx P v).or ((firstIdx Q v).map (fun n => n + P.length)) := by
  induction P with
  | nil =>
      show firstIdx Q v = Option.or none ((firstIdx Q v).map (fun n => n + 0))
      rw [Option.none_or]
      cases firstIdx Q v <;> simp
  | cons x rest ih =>
      show (if x = some v then some 0
            else (firstIdx (rest ++ Q) v).map (fun n => n + 1)) = _
      by_cases hx : x = some v
      · simp [firstIdx, hx]
      · rw [if_neg hx, ih]
        show _ = Option.or (if x = some v then some 0
          else (firstIdx rest v).map (fun n => n + 1)) _
        rw [if_neg hx]
        cases hP : firstIdx rest v with
        | some j => simp
        | none =>
            cases hQ : firstIdx Q v with
            | none => simp
            | some j =>
                simp only [Option.none_or, Option.map_map, Option.map_some]
                show some (j + rest.length + 1) = some (j + (x :: rest).length)
                rw [List.length_cons, Nat.add_assoc]

lemma firstIdx_of_first :
    ∀ (seed : List (Option Bytes)) (v : Bytes) (i : Nat),
      seed.getD i none = some v →
      (∀ j, j < i → seed.getD j none ≠ some v) →
      firstIdx seed v = some i := by
  intro seed
  induction seed with
  | nil =>
      intro v i hi _
      rw [List.getD_eq_getElem?_getD] at hi
      simp at hi
  | cons x rest ih =>
      intro v i hi hfirst
      cases i with
      | zero =>
          rw [List.getD_cons_zero] at hi
          simp [firstIdx, hi]
      | succ j =>
          rw [List.getD_cons_succ] at hi
          have hx : x ≠ some v := by
            have h0 := hfirst 0 (Nat.succ_pos j)
            rw [List.getD_cons_zero] at h0
            exact h0
          have hrest := ih v j hi (fun j₂ hj₂ => by
            have hj3 := hfirst (j₂ + 1) (by omega)
            rw [List.getD_cons_succ] at hj3
            exact hj3)
          simp [firstIdx, hx, hrest]

/-- Invariant of the seed ingestion loop: the dedup table resolves every
byte content to the first slot holding it, and every table entry is an
in-range non-null slot. -/
lemma seedLoop_dedup_spec :
    ∀ (rest P : List (Option Bytes)) (dd : List Nat),
      (∀ j ∈ dd, j < P.length ∧ (P.getD j none).isSome = true) →
      (∀ w : Bytes, dedupFind dd P w = firstIdx P w) →
      (∀ j ∈ (seedLoop P dd P.length rest).2,
          j < (P ++ rest).length ∧ ((P ++ rest).getD j none).isSome = true)
      ∧ (∀ w : Bytes,
          dedupFind (seedLoop P dd P.length rest).2 (seedLoop P dd P.length rest).1 w
            = firstIdx (P ++ rest) w) := by
  intro rest
  induction rest with
  | nil =>
      intro P dd h1 h2
      constructor
      · intro j hj
        have := h1 j hj
        simpa using this
      · intro w
        show dedupFind dd P w = firstIdx (P ++ []) w
        rw [List.append_nil]
        exact h2 w
  | cons x rest ih =>
      intro P dd h1 h2
      cases x with
      | none =>
          have hstep : seedLoop P dd P.length (none :: rest)
              = seedLoop (P ++ [none]) dd ((P ++ [none]).length) rest := by
            show seedLoop (P ++ [none]) dd (P.length + 1) rest = _
            simp
          have h1' : ∀ j ∈ dd,
              j < (P ++ [none]).length ∧ ((P ++ [none]).getD j none).isSome = true := by
            intro j hj
            obtain ⟨hlt, hsome⟩ := h1 j hj
            refine ⟨by simp; omega, ?_⟩
            rw [getD_append_lt _ _ _ _ hlt]
            exact hsome
          have h2' : ∀ w, dedupFind dd (P ++ [none]) w = firstIdx (P ++ [none]) w := by
            intro w
            rw [dedupFind_extend _ _ _ _ (fun j hj => (h1 j hj).1), h2 w, firstIdx_append]
            have hn : firstIdx [none] w = none := by simp [firstIdx]
            rw [hn]
            cases firstIdx P w <;> simp
          obtain ⟨g1, g2⟩ := ih (P ++ [none]) dd h1' h2'
          rw [hstep]
          constructor
          · intro j hj
            have := g1 j hj
            rw [List.append_assoc] at this
            exact this
          · intro w
            have := g2 w
            rw [List.append_assoc] at this
            exact this
      | some v =>
          cases hf : dedupFind dd P v with
          | some j₀ =>
              have hstep : seedLoop P dd P.length (some v :: rest)
                  = seedLoop (P ++ [some v]) dd ((P ++ [some v]).length) rest := by
                show (match dedupFind dd P v with
                      | some _ => seedLoop (P ++ [some v]) dd (P.length + 1) rest
                      | none =>
                          seedLoop (P ++ [some v]) (dd ++ [P.length]) (P.length + 1) rest)
                    = _
                rw [hf]
                simp
              have h1' : ∀ j ∈ dd,
                  j < (P ++ [some v]).length
                  ∧ ((P ++ [some v]).getD j none).isSome = true := by
                intro j hj
                obtain ⟨hlt, hsome⟩ := h1 j hj
                refine ⟨by simp; omega, ?_⟩
                rw [getD_append_lt _ _ _ _ hlt]
                exact hsome
              have h2' : ∀ w, dedupFind dd (P ++ [some v]) w
                  = firstIdx (P ++ [some v]) w := by
                intro w
                rw [dedupFind_extend _ _ _ _ (fun j hj => (h1 j hj).1), h2 w,
                  firstIdx_append]
                by_cases hw : v = w
                · subst hw
                  have hfi : firstIdx P v = some j₀ := by
                    rw [← h2 v]
                    exact hf
                  rw [hfi]
                  rfl
                · have hfi1 : firstIdx [some v] w = none := by simp [firstIdx, hw]
                  rw [hfi1]
                  cases firstIdx P w <;> simp
              obtain ⟨g1, g2⟩ := ih (P ++ [some v]) dd h1' h2'
              rw [hstep]
              constructor
              · intro j hj
                have := g1 j hj
                rw [List.append_assoc] at this
                exact this
              · intro w
                have := g2 w
                rw [List.append_assoc] at this
                exact this
          | none =>
              have hstep : seedLoop P dd P.length (some v :: rest)
                  = seedLoop (P ++ [some v]) (dd ++ [P.length])
                      ((P ++ [some v]).length) rest := by
                show (match dedupFind dd P v with
                      | some _ => seedLoop (P ++ [some v]) dd (P.length + 1) rest
                      | none =>
                          seedLoop (P ++ [some v]) (dd ++ [P.length]) (P.length + 1) rest)
                    = _
                rw [hf]
                simp
              have h1' : ∀ j ∈ dd ++ [P.length],
                  j < (P ++ [some v]).length
                  ∧ ((P ++ [some v]).getD j none).isSome = true := by
                intro j hj
                rcases List.mem_append.mp hj with hj | hj
                · obtain ⟨hlt, hsome⟩ := h1 j hj
                  refine ⟨by simp; omega, ?_⟩
                  rw [getD_append_lt _ _ _ _ hlt]
                  exact hsome
                · rw [List.mem_singleton] at hj
                  subst hj
                  refine ⟨by simp, ?_⟩
                  rw [getD_append_len]
                  rfl
              have h2' : ∀ w, dedupFind (dd ++ [P.length]) (P ++ [some v]) w
                  = firstIdx (P ++ [some v]) w := by
                intro w
                rw [dedupFind_append,
                  dedupFind_extend _ _ _ _ (fun j hj => (h1 j hj).1), h2 w,
                  firstIdx_append]
                by_cases hw : v = w
                · subst hw
                  have hfi : firstIdx P v = none := by
                    rw [← h2 v]
                    exact hf
                  rw [hfi]
                  have hsec : dedupFind [P.length] (P ++ [some v]) v
                      = some P.length := by
                    unfold dedupFind
                    have hgb : getBytes (P ++ [some v]) P.length = v := by
                      simp [getBytes, getD_append_len]
                    simp [List.find?, hgb]
                  rw [hsec]
                  have hfi2 : firstIdx [some v] v = some 0 := by simp [firstIdx]
                  rw [hfi2]
                  simp
                · have hsec : dedupFind [P.length] (P ++ [some v]) w = none := by
                    unfold dedupFind
                    have hgb : getBytes (P ++ [some v]) P.length = v := by
                      simp [getBytes, getD_append_len]
                    simp [List.find?, hgb, hw]
                  have hfi1 : firstIdx [some v] w = none := by simp [firstIdx, hw]
                  rw [hsec, hfi1]
                  cases firstIdx P w <;> simp
              obtain ⟨g1, g2⟩ := ih (P ++ [some v]) (dd ++ [P.length]) h1' h2'
              rw [hstep]
              constructor
              · intro j hj
                have := g1 j hj
                rw [List.append_assoc] at this
                exact this
              · intro w
                have := g2 w
                rw [List.append_assoc] at this
                exact this

/-- Specification of a successful pre-seeded construction. -/
lemma new_with_dictionary_spec (km : Nat) (seed : List (Option Bytes)) (b₀ : Builder)
    (h : new_with_dictionary km seed = .ok b₀) :
    b₀.values = seed ∧ b₀.keys = [] ∧ b₀.keyMax = km ∧ seed.length ≤ km
    ∧ goodDedupB b₀ = true
    ∧ ∀ w, dedupFind b₀.dedup b₀.values w = firstIdx seed w := by
  by_cases hle : seed.length ≤ km
  · unfold new_with_dictionary at h
    rw [show fromUsize km seed.length = some seed.length from if_pos hle] at h
    have hb : b₀ = { dedup := (seedLoop [] [] 0 seed).2, keys := [], values := (seedLoop [] [] 0 seed).1, keyMax := km } := by
      injection h with h'
      exact h'.symm
    obtain ⟨g1, g2⟩ := seedLoop_dedup_spec seed [] []
      (by intro j hj; exact absurd hj (by simp)) (fun w => rfl)
    have hv : (seedLoop [] [] 0 seed).1 = seed := by
      rw [seedLoop_values]
      rfl
    subst hb
    refine ⟨hv, rfl, rfl, hle, ?_, ?_⟩
    · rw [goodDedupB_iff]
      intro i hi
      have := g1 i hi
      rw [hv]
      exact this
    · intro w
      exact g2 w
  · exfalso
    unfold new_with_dictionary at h
    rw [show fromUsize km seed.length = none from if_neg hle] at h
    exact absurd h (by simp)

/-! ### Claim theorems -/

/-- C2: Round trip — appending optional values `v0..vn` to a fresh
builder (nulls via `append_null`, values via `append`), finishing, then
reading each key and dereferencing it into the values array (null key
meaning null row) reproduces `v0..vn` exactly, including null
positions. -/
theorem claim_C2_round_trip (km : Nat) (s : List (Option Bytes)) (b : Builder)
    (h : replay (emptyBuilder km) s = some b) :
    derefRows (finish b).1 = s := by
  obtain ⟨hrows, _, _, _, _⟩ :=
    replay_spec s (emptyBuilder km) b (emptyBuilder_goodDedup km)
      (emptyBuilder_keysInRange km) h
  have hfc : derefRows (finish b).1 = rows b := rfl
  rw [hfc, hrows, emptyBuilder_rows]
  simp

theorem claim_C2_round_trip_witness :
    replay (emptyBuilder 2) [some [97], none, some [98], some [97]] = some { dedup := [0, 1], keys := [some 0, none, some 1, some 0], values := [some [97], some [98]], keyMax := 2 }
    ∧ derefRows (finish { dedup := [0, 1], keys := [some 0, none, some 1, some 0], values := [some [97], some [98]], keyMax := 2 : Builder }).1 = [some [97], none, some [98], some [97]] :=
  ⟨by decide,
   claim_C2_round_trip 2 [some [97], none, some [98], some [97]]
     { dedup := [0, 1], keys := [some 0, none, some 1, some 0], values := [some [97], some [98]], keyMax := 2 } (by decide)⟩

/-- C7: A source dictionary with non-empty values but empty keys makes
`extend_dictionary` fail with the invalid-argument error, and the
destination builder's state (values, keys, dedup) is returned unchanged:
the shape check precedes any mutation. -/
theorem claim_C7_invalid_shape (b : Builder) (d : DictArray)
    (hv : d.values.length ≠ 0) (hk : d.keys.length = 0) :
    extend_dictionary b d =
      (.error (.invalidArgument
        "Dictionary keys should not be empty when values are not empty"), b) := by
  unfold extend_dictionary
  rw [if_neg (fun hc => hv hc.1), if_neg hv, if_pos hk]

theorem claim_C7_invalid_shape_witness :
    extend_dictionary (runAppends (emptyBuilder 5) [some [1]])
        { keys := [], values := [some [2]] } =
      (.error (.invalidArgument
        "Dictionary keys should not be empty when values are not empty"),
       runAppends (emptyBuilder 5) [some [1]]) :=
  claim_C7_invalid_shape (runAppends (emptyBuilder 5) [some [1]])
    { keys := [], values := [some [2]] } (by decide) (by decide)

/-- C8: In the main merge path, `extend_dictionary` succeeds and appends
one key per source key: a null source key appends null, and a non-null
source key `i` is clamped to `min(i, v_len - 1)` before indexing the
translation table (out-of-range encoded indices are silently tolerated),
with a null translated entry yielding a null append. -/
theorem claim_C8_clamped_stream (b : Builder) (d : DictArray)
    (m : List (Option Nat)) (b₁ : Builder)
    (hv : d.values.length ≠ 0) (hk : d.keys.length ≠ 0)
    (hmv : mapValues b d.values = (.ok m, b₁)) :
    extend_dictionary b d = (.ok (), streamKeys b₁ m d.values.length d.keys)
    ∧ (streamKeys b₁ m d.values.length d.keys).keys
        = b₁.keys ++ d.keys.map (clampKey m d.values.length)
    ∧ (∀ i : Nat, clampKey m d.values.length (some i)
        = m.getD (min i (d.values.length - 1)) none)
    ∧ clampKey m d.values.length none = none := by
  refine ⟨?_, ?_, fun i => rfl, rfl⟩
  · unfold extend_dictionary
    rw [if_neg (fun hc => hv hc.1), if_neg hv, if_neg hk, hmv]
  · rw [streamKeys_eq]

theorem claim_C8_clamped_stream_witness :
    (extend_dictionary (emptyBuilder 100)
        { keys := [some 7, some 0, none], values := [some [1], none] }
      = (.ok (), streamKeys
          { dedup := [0], keys := [], values := [some [1]], keyMax := 100 }
          [some 0, none] 2 [some 7, some 0, none]))
    ∧ (streamKeys { dedup := [0], keys := [], values := [some [1]], keyMax := 100 }
        [some 0, none] 2 [some 7, some 0, none]).keys
        = ([] : List (Option Nat)) ++
            [some 7, some 0, none].map (clampKey [some 0, none] 2)
    ∧ clampKey [some 0, none] 2 (some 7) = [some 0, none].getD (min 7 1) none
    ∧ clampKey [some 0, none] 2 none = none := by
  have h := claim_C8_clamped_stream (emptyBuilder 100)
    { keys := [some 7, some 0, none], values := [some [1], none] }
    [some 0, none] { dedup := [0], keys := [], values := [some [1]], keyMax := 100 }
    (by decide) (by decide) (by decide)
  exact ⟨h.1, h.2.1, h.2.2.1 7, h.2.2.2⟩

/-- C1: Bulk-merge equivalence — for a destination builder `B`
(satisfying the builder invariants) and a source dictionary `D` built
from an append sequence `S`, a successful `B.extend_dictionary(D)`
produces the same logical row sequence as replaying `D`'s logical rows
(key resolved to referenced value, nulls preserved) through
`append_option` one at a time, though the slot numbering inside the two
resulting builders may differ. -/
theorem claim_C1_bulk_merge_equivalence
    (km : Nat) (S : List (Option Bytes)) (bs B B₁ B₂ : Builder)
    (hS : replay (emptyBuilder km) S = some bs)
    (hg : goodDedupB B = true) (hkr : keysInRangeB B = true)
    (hext : extend_dictionary B (finish bs).1 = (.ok (), B₁))
    (hrep : replay B (derefRows (finish bs).1) = some B₂) :
    rows B₁ = rows B₂ := by
  obtain ⟨_, _, hkrs, _, _⟩ :=
    replay_spec S (emptyBuilder km) bs (emptyBuilder_goodDedup km)
      (emptyBuilder_keysInRange km) hS
  have hdk : ∀ i : Nat, some i ∈ (finish bs).1.keys → i < (finish bs).1.values.length :=
    fun i hi => keysInRangeB_iff.mp hkrs i hi
  have h1 : rows B₁ = rows B ++ derefRows (finish bs).1 :=
    extend_ok_rows hg hkr hdk hext
  obtain ⟨h2, _, _, _, _⟩ :=
    replay_spec (derefRows (finish bs).1) B B₂ hg hkr hrep
  rw [h1, h2]

theorem claim_C1_bulk_merge_equivalence_witness :
    (replay (emptyBuilder 10) [some [1], none, some [2], some [1]] = some { dedup := [0, 1], keys := [some 0, none, some 1, some 0], values := [some [1], some [2]], keyMax := 10 }
      ∧ goodDedupB { dedup := [0], keys := [some 0], values := [some [2]], keyMax := 10 : Builder } = true
      ∧ keysInRangeB { dedup := [0], keys := [some 0], values := [some [2]], keyMax := 10 : Builder } = true)
    ∧ rows { dedup := [0, 1], keys := [some 0, some 1, none, some 0, some 1], values := [some [2], some [1]], keyMax := 10 : Builder }
      = rows { dedup := [0, 1], keys := [some 0, some 1, none, some 0, some 1], values := [some [2], some [1]], keyMax := 10 : Builder } :=
  ⟨⟨by decide, by decide, by decide⟩,
   claim_C1_bulk_merge_equivalence 10 [some [1], none, some [2], some [1]]
     { dedup := [0, 1], keys := [some 0, none, some 1, some 0], values := [some [1], some [2]], keyMax := 10 }
     { dedup := [0], keys := [some 0], values := [some [2]], keyMax := 10 }
     { dedup := [0, 1], keys := [some 0, some 1, none, some 0, some 1], values := [some [2], some [1]], keyMax := 10 }
     { dedup := [0, 1], keys := [some 0, some 1, none, some 0, some 1], values := [some [2], some [1]], keyMax := 10 }
     (by decide) (by decide) (by decide) (by decide) (by decide)⟩

/-- C4: When `append(value)` fails, the failure is key overflow and the
keys accumulator is exactly as before the call; for a new distinct value
the value has nevertheless been stored (one slot consumed, one dedup
entry added) and is not rolled back, while a repeat of a known value
leaves the whole state unchanged; an immediate retry of the same value
keys off the stored slot: it fails again without consuming another
slot. -/
theorem claim_C4_failed_append_frame (b : Builder) (v : Bytes) (e : ArrowError) (b₁ : Builder)
    (hg : goodDedupB b = true) (h : append b v = (.error e, b₁)) :
    e = .dictionaryKeyOverflow
    ∧ b₁.keys = b.keys
    ∧ b₁.keyMax = b.keyMax
    ∧ (dedupFind b.dedup b.values v = none →
        b₁.values = b.values ++ [some v] ∧ b₁.dedup = b.dedup ++ [b.values.length])
    ∧ (∀ i, dedupFind b.dedup b.values v = some i → b₁ = b)
    ∧ append b₁ v = (.error .dictionaryKeyOverflow, b₁) := by
  have hgo := append_error_state h
  cases hfind : dedupFind b.dedup b.values v with
  | some idx =>
      rw [goik_found hfind] at hgo
      have hres : keyResult b.keyMax idx = .error e := congrArg Prod.fst hgo
      have hb : b = b₁ := congrArg Prod.snd hgo
      obtain ⟨hlt, he⟩ := keyResult_error_iff.mp hres
      subst he
      subst hb
      refine ⟨rfl, rfl, rfl, ?_, fun i _ => rfl, ?_⟩
      · intro hn
        exact absurd hn (by simp)
      · apply append_of_goik_error
        rw [goik_found hfind, hres]
  | none =>
      rw [goik_new hfind] at hgo
      have hres : keyResult b.keyMax b.values.length = .error e := congrArg Prod.fst hgo
      have hb : pushValue b v = b₁ := congrArg Prod.snd hgo
      obtain ⟨hlt, he⟩ := keyResult_error_iff.mp hres
      subst he
      subst hb
      refine ⟨rfl, rfl, rfl, fun _ => ⟨rfl, rfl⟩, ?_, ?_⟩
      · intro i hi
        exact absurd hi (by simp)
      · apply append_of_goik_error
        have hf2 := dedupFind_push_self v hg hfind
        rw [goik_found hf2]
        show (keyResult b.keyMax b.values.length, pushValue b v) = _
        rw [hres]

theorem claim_C4_failed_append_frame_witness :
    ({ dedup := [0, 1], keys := [some 0], values := [some [1], some [2]], keyMax := 0 : Builder }).keys
      = ({ dedup := [0], keys := [some 0], values := [some [1]], keyMax := 0 : Builder }).keys
    ∧ (({ dedup := [0, 1], keys := [some 0], values := [some [1], some [2]], keyMax := 0 : Builder }).values
        = ({ dedup := [0], keys := [some 0], values := [some [1]], keyMax := 0 : Builder }).values ++ [some [2]]
      ∧ ({ dedup := [0, 1], keys := [some 0], values := [some [1], some [2]], keyMax := 0 : Builder }).dedup
        = ({ dedup := [0], keys := [some 0], values := [some [1]], keyMax := 0 : Builder }).dedup
          ++ [({ dedup := [0], keys := [some 0], values := [some [1]], keyMax := 0 : Builder }).values.length])
    ∧ append { dedup := [0, 1], keys := [some 0], values := [some [1], some [2]], keyMax := 0 : Builder } [2]
        = (.error .dictionaryKeyOverflow, { dedup := [0, 1], keys := [some 0], values := [some [1], some [2]], keyMax := 0 : Builder }) := by
  have h := claim_C4_failed_append_frame
    { dedup := [0], keys := [some 0], values := [some [1]], keyMax := 0 }
    [2] .dictionaryKeyOverflow
    { dedup := [0, 1], keys := [some 0], values := [some [1], some [2]], keyMax := 0 }
    (by decide) (by decide)
  exact ⟨h.2.1, h.2.2.2.1 (by decide), h.2.2.2.2.2⟩

/-- C6: Concrete seeded scenario — seeding from the values array
`[null, "def", "abc"]` then appending `"abc"`, null, `"def"`, `"def"`,
`"abc"`, `"ghi"` and finishing yields keys `[2, null, 1, 1, 2, 3]` and
values `[null, "def", "abc", "ghi"]` (seed order and null placement
preserved, the new value at the next slot).  Bytes are the ASCII codes. -/
theorem claim_C6_seeded_scenario :
    ((new_with_dictionary 127 [none, some [100, 101, 102], some [97, 98, 99]]).toOption.bind
        (fun b₀ => replay b₀ [some [97, 98, 99], none, some [100, 101, 102], some [100, 101, 102], some [97, 98, 99], some [103, 104, 105]])).map
      (fun bf => (finish bf).1)
    = some { keys := [some 2, none, some 1, some 1, some 2, some 3], values := [none, some [100, 101, 102], some [97, 98, 99], some [103, 104, 105]] } := by
  decide

/-- C9: Pre-seeded construction fails — recoverably, with the key
overflow error and no builder — exactly when the seed array's length is
not representable in the key's native type, and otherwise succeeds,
producing a builder whose values accumulator is the seed array (order
and nulls preserved) and whose keys accumulator is empty. -/
theorem claim_C9_seed_construction_overflow (km : Nat) (seed : List (Option Bytes)) :
    ((∃ b, new_with_dictionary km seed = .ok b ∧ b.values = seed ∧ b.keys = [])
      ↔ seed.length ≤ km)
    ∧ (new_with_dictionary km seed = .error .dictionaryKeyOverflow ↔ km < seed.length) := by
  have hload : ∀ _h : seed.length ≤ km,
      new_with_dictionary km seed =
        .ok { dedup := (seedLoop [] [] 0 seed).2, keys := [],
              values := (seedLoop [] [] 0 seed).1, keyMax := km } := by
    intro h
    unfold new_with_dictionary
    rw [show fromUsize km seed.length = some seed.length from if_pos h]
  have herr : ∀ _h : ¬ seed.length ≤ km,
      new_with_dictionary km seed = .error .dictionaryKeyOverflow := by
    intro h
    unfold new_with_dictionary
    rw [show fromUsize km seed.length = none from if_neg h]
  constructor
  · constructor
    · rintro ⟨b, hb, _, _⟩
      by_contra hle
      rw [herr hle] at hb
      exact absurd hb (by simp)
    · intro hle
      refine ⟨_, hload hle, ?_, rfl⟩
      show (seedLoop [] [] 0 seed).1 = seed
      rw [seedLoop_values]
      rfl
  · constructor
    · intro h
      by_contra hlt
      have hle : seed.length ≤ km := by omega
      rw [hload hle] at h
      exact absurd h (by simp)
    · intro hlt
      exact herr (by omega)

/-- C3: Overflow boundary — with a key width addressing `keyMax + 1`
slots, appending `keyMax + 1` pairwise-distinct values to a fresh builder
all succeed, the next new distinct value fails with the key-overflow
error, and a repeat of any value whose slot was successfully assigned
never fails, no matter how many values (distinct or not) were appended in
between. -/
theorem claim_C3_overflow_boundary (km : Nat) (vs : List Bytes)
    (hnd : vs.Nodup) (hlen : vs.length = km + 1) :
    (∃ b', replay (emptyBuilder km) (vs.map some) = some b'
       ∧ ∀ w, w ∉ vs → (append b' w).1 = .error .dictionaryKeyOverflow)
    ∧ ∀ (b : Builder) (v : Bytes) (k : Nat) (b₁ : Builder) (ws : List (Option Bytes)),
        goodDedupB b = true →
        get_or_insert_key b v = (.ok k, b₁) →
        (append (runAppends b₁ ws) v).1 = .ok k := by
  constructor
  · obtain ⟨b', hrep, hv', hd', hk'⟩ :=
      replay_distinct vs [] (emptyBuilder km) rfl rfl (by simpa using hnd)
        (by simp [hlen, emptyBuilder])
    have hv2 : b'.values = vs.map some := by simpa using hv'
    have hd2 : b'.dedup = List.range vs.length := by simpa using hd'
    have hkm : b'.keyMax = km := hk'
    refine ⟨b', hrep, ?_⟩
    intro w hw
    have hfind : dedupFind b'.dedup b'.values w = none := by
      rw [hv2, hd2]
      exact (dedupFind_fresh vs w).mpr hw
    rw [(append_parts b' w).1, goik_new hfind]
    show keyResult b'.keyMax b'.values.length = _
    have hlenv : b'.values.length = km + 1 := by rw [hv2]; simp [hlen]
    rw [hlenv, hkm]
    exact keyResult_error_iff.mpr ⟨by omega, rfl⟩
  · intro b v k b₁ ws hg hgo
    obtain ⟨_, _, _, _, hgd₁, hmax₁, hle, hfind₁⟩ := goik_ok_spec hg hgo
    have hres := append_result_after_run b₁ v ws k hgd₁ hfind₁
    rw [hres, hmax₁, keyResult_of_le hle]

theorem claim_C3_overflow_boundary_witness :
    (∃ b', replay (emptyBuilder 1) ([[1], [2]].map some) = some b'
       ∧ ∀ w, w ∉ [[1], [2]] → (append b' w).1 = .error .dictionaryKeyOverflow)
    ∧ (append (runAppends { dedup := [0], keys := [], values := [some [7]], keyMax := 5 } [some [8], none]) [7]).1 = .ok 0 := by
  have h := claim_C3_overflow_boundary 1 [[1], [2]] (by decide) (by decide)
  exact ⟨h.1, h.2 (emptyBuilder 5) [7] 0
    { dedup := [0], keys := [], values := [some [7]], keyMax := 5 }
    [some [8], none] (by decide) (by decide)⟩

/-- C5: Dedup invariant — for any append sequence on a fresh
(non-pre-seeded) builder, the values accumulator ends with exactly one
slot per distinct non-null value ever appended (even appends that failed
with overflow still consumed their slot), and any two occurrences of the
same value in the sequence resolve to the same `append` result. -/
theorem claim_C5_dedup_invariant (km : Nat) (s : List (Option Bytes)) :
    (runAppends (emptyBuilder km) s).values.length = (s.filterMap id).toFinset.card
    ∧ ∀ (v : Bytes) (s₁ s₂ t₁ t₂ : List (Option Bytes)),
        s = s₁ ++ some v :: s₂ → s = t₁ ++ some v :: t₂ →
        (append (runAppends (emptyBuilder km) s₁) v).1
          = (append (runAppends (emptyBuilder km) t₁) v).1 := by
  constructor
  · obtain ⟨cs₂, g1, _, _, g4⟩ :=
      runAppends_fresh_card s [] (emptyBuilder km) rfl rfl (by simp)
    rw [g1]
    simpa using g4
  · intro v s₁ s₂ t₁ t₂ hs ht
    rcases Nat.le_total s₁.length t₁.length with hle | hle
    · exact (key_agreement_aux (emptyBuilder km) rfl v s₁ s₂ t₁ t₂ hle
        (hs.symm.trans ht)).symm
    · exact key_agreement_aux (emptyBuilder km) rfl v t₁ t₂ s₁ s₂ hle
        (ht.symm.trans hs)

theorem claim_C5_dedup_invariant_witness :
    (runAppends (emptyBuilder 1) [some [1], none, some [2], some [1], some [3]]).values.length
      = ([some [1], none, some [2], some [1], some [3]].filterMap id).toFinset.card
    ∧ (append (runAppends (emptyBuilder 1) []) [1]).1
        = (append (runAppends (emptyBuilder 1) [some [1], none, some [2]]) [1]).1 := by
  have h := claim_C5_dedup_invariant 1 [some [1], none, some [2], some [1], some [3]]
  exact ⟨h.1, h.2 [1] [] [none, some [2], some [1], some [3]]
    [some [1], none, some [2]] [some [3]] rfl rfl⟩

/-- C10: When the seed array holds the same byte sequence at several
indices, each occurrence keeps its own value slot (the values accumulator
is the seed array itself), but the dedup index records only the earliest
occurrence, so every subsequent append of that byte sequence — after any
run of intervening appends — returns the slot index `i` of its first
occurrence in the seed, appending only that key and storing nothing
new. -/
theorem claim_C10_seed_duplicate_resolution (km : Nat) (seed : List (Option Bytes))
    (b₀ : Builder) (v : Bytes) (i : Nat)
    (h : new_with_dictionary km seed = .ok b₀)
    (hi : seed.getD i none = some v)
    (hfirst : ∀ j, j < i → seed.getD j none ≠ some v) :
    b₀.values = seed
    ∧ ∀ ws : List (Option Bytes),
        append (runAppends b₀ ws) v
          = (.ok i, { runAppends b₀ ws with
              keys := (runAppends b₀ ws).keys ++ [some i] }) := by
  obtain ⟨hval, _, hkm, hle, hgd, hdf⟩ := new_with_dictionary_spec km seed b₀ h
  refine ⟨hval, ?_⟩
  intro ws
  have hfi : firstIdx seed v = some i := firstIdx_of_first seed v i hi hfirst
  have hfind : dedupFind b₀.dedup b₀.values v = some i := by rw [hdf v, hfi]
  obtain ⟨hg', hmax', hst⟩ := runAppends_stable ws b₀ hgd
  have hfind' := hst v i hfind
  have hilt : i < seed.length := by
    by_contra hge
    have hnone : seed.getD i none = none := by
      rw [List.getD_eq_getElem?_getD, List.getElem?_eq_none (by omega)]
      rfl
    rw [hnone] at hi
    exact absurd hi (by simp)
  have hile : i ≤ (runAppends b₀ ws).keyMax := by
    rw [hmax', hkm]
    omega
  have hgoik : get_or_insert_key (runAppends b₀ ws) v = (.ok i, runAppends b₀ ws) := by
    rw [goik_found hfind', keyResult_of_le hile]
  exact append_of_goik_ok hgoik

theorem claim_C10_seed_duplicate_resolution_witness :
    ({ dedup := [0, 3], keys := [], values := [some [5], none, some [5], some [6]], keyMax := 9 : Builder }).values
      = [some [5], none, some [5], some [6]]
    ∧ append (runAppends { dedup := [0, 3], keys := [], values := [some [5], none, some [5], some [6]], keyMax := 9 : Builder } [some [6]]) [5]
      = (.ok 0, { runAppends { dedup := [0, 3], keys := [], values := [some [5], none, some [5], some [6]], keyMax := 9 : Builder } [some [6]] with
          keys := (runAppends { dedup := [0, 3], keys := [], values := [some [5], none, some [5], some [6]], keyMax := 9 : Builder } [some [6]]).keys ++ [some 0] }) := by
  have h := claim_C10_seed_duplicate_resolution 9 [some [5], none, some [5], some [6]]
    { dedup := [0, 3], keys := [], values := [some [5], none, some [5], some [6]], keyMax := 9 }
    [5] 0 (by decide) (by decide) (fun j hj => absurd hj (Nat.not_lt_zero j))
  exact ⟨h.1, h.2 [some [6]]⟩

end DictBuilder
